import Mathlib

/-!
Verification of the numerical core of the "straight dope" notebooks:
softmax regression from scratch (softmax, cross-entropy, SGD, accuracy
evaluation, moving-average loss) and the linear-regression / MLP
notebooks sharing the same training-loop skeleton.

Matrices are embedded as `List (List ℝ)` (one inner list per example
row); NDArray elementwise operations become `List.map` / `List.zipWith`,
row-wise reductions (`nd.sum(..., axis=0, exclude=True)`) become
per-row `List.sum`.
-/

/-- `nd.max` over a non-empty list of scalars; the `[]` case is
unreachable for the non-empty tensors the notebooks use. -/
def listMax : List ℝ → ℝ
  | [] => 0
  | x :: xs => xs.foldl max x

/-- Dividing a row elementwise by its own sum: the `exp / partition`
step of `softmax`, where `partition` is the row's sum. -/
noncomputable def normalizeRow (l : List ℝ) : List ℝ :=
  l.map (fun e => e / l.sum)

/-- The intermediate `y_linear - nd.max(y_linear)` of `softmax`:
every entry is shifted by the global maximum of the whole matrix
(`nd.max` with no axis reduces over all axes). -/
def globalShift (y_linear : List (List ℝ)) : List (List ℝ) :=
  y_linear.map (fun row => row.map (fun x => x - listMax y_linear.flatten))

/-- The matrix `exp = nd.exp(y_linear - nd.max(y_linear))` of `softmax`. -/
noncomputable def softmaxExps (y_linear : List (List ℝ)) : List (List ℝ) :=
  (globalShift y_linear).map (fun row => row.map Real.exp)

/-- `softmax` from `P02-C03-softmax-regression-scratch.ipynb`:
`exp = nd.exp(y_linear - nd.max(y_linear))`;
`partition = nd.sum(exp, axis=0, exclude=True).reshape((-1,1))`;
`return exp / partition`. -/
noncomputable def softmax (y_linear : List (List ℝ)) : List (List ℝ) :=
  (softmaxExps y_linear).map (fun row => row.map (fun e => e / row.sum))

/-- Unnormalized softmax with no max-shift at all; both the source's
global-shift softmax and the spec's row-shift softmax are proved equal
to this form in exact arithmetic. -/
noncomputable def softmaxPlain (m : List (List ℝ)) : List (List ℝ) :=
  m.map (fun row => normalizeRow (row.map Real.exp))

/-- The softmax described by the spec's words: subtract the row-wise
maximum before exponentiating, then divide by the row-wise sum of
exponentials.  Stated separately from `softmax` (which follows the
source and shifts by the global maximum) so the two can be compared. -/
noncomputable def softmaxRowSpec (m : List (List ℝ)) : List (List ℝ) :=
  m.map (fun row =>
    (row.map (fun x => Real.exp (x - listMax row))).map
      (fun e => e / (row.map (fun x => Real.exp (x - listMax row))).sum))

lemma sum_map_div (l : List ℝ) (c : ℝ) :
    (l.map (fun x => x / c)).sum = l.sum / c := by
  induction l with
  | nil => simp
  | cons x xs ih => simp [ih, add_div]

lemma sum_map_mul_const (l : List ℝ) (c : ℝ) :
    (l.map (fun x => x * c)).sum = l.sum * c := by
  induction l with
  | nil => simp
  | cons x xs ih => simp [ih, add_mul]

/-- Rescaling a row by a nonzero constant does not change its
normalization. -/
lemma normalizeRow_map_mul (l : List ℝ) (k : ℝ) (hk : k ≠ 0) :
    normalizeRow (l.map (fun x => x * k)) = normalizeRow l := by
  unfold normalizeRow
  rw [sum_map_mul_const, List.map_map]
  apply List.map_congr_left
  intro a _
  simp only [Function.comp_apply]
  exact mul_div_mul_right a l.sum hk

/-- Shifting the exponent argument by a constant does not change the
normalized row of exponentials. -/
lemma normalizeRow_exp_sub (row : List ℝ) (c : ℝ) :
    normalizeRow (row.map (fun x => Real.exp (x - c)))
      = normalizeRow (row.map Real.exp) := by
  have h : row.map (fun x => Real.exp (x - c))
      = (row.map Real.exp).map (fun y => y * (Real.exp c)⁻¹) := by
    simp [List.map_map, Real.exp_sub, div_eq_mul_inv]
  rw [h, normalizeRow_map_mul _ _ (inv_ne_zero (Real.exp_ne_zero c))]

/-- In exact arithmetic the source's softmax (global-maximum shift)
agrees with the unshifted normalized exponentials. -/
lemma softmax_eq_plain (m : List (List ℝ)) : softmax m = softmaxPlain m := by
  unfold softmax softmaxExps globalShift softmaxPlain
  rw [List.map_map, List.map_map]
  apply List.map_congr_left
  intro row _
  show normalizeRow ((row.map (fun x => x - listMax m.flatten)).map Real.exp)
      = normalizeRow (row.map Real.exp)
  rw [List.map_map]
  exact normalizeRow_exp_sub row (listMax m.flatten)

/-- The spec's row-wise-maximum softmax also agrees with the unshifted
normalized exponentials. -/
lemma softmaxRowSpec_eq_plain (m : List (List ℝ)) :
    softmaxRowSpec m = softmaxPlain m := by
  unfold softmaxRowSpec softmaxPlain
  apply List.map_congr_left
  intro row _
  show normalizeRow (row.map (fun x => Real.exp (x - listMax row)))
      = normalizeRow (row.map Real.exp)
  exact normalizeRow_exp_sub row (listMax row)

lemma expRow_sum_pos (row : List ℝ) (h : row ≠ []) :
    0 < (row.map Real.exp).sum := by
  refine List.sum_pos _ ?_ (by simpa using h)
  intro x hx
  obtain ⟨y, _, rfl⟩ := List.mem_map.1 hx
  exact Real.exp_pos y

/-- Claim C2: every row of the softmax output sums to 1 and every
entry is non-negative (exact real arithmetic; rows are non-empty since
there is at least one class). -/
theorem softmax_rows_sum_one_nonneg (m : List (List ℝ))
    (h : ∀ row ∈ m, row ≠ []) :
    ∀ row ∈ softmax m, row.sum = 1 ∧ ∀ x ∈ row, 0 ≤ x := by
  rw [softmax_eq_plain]
  intro row hrow
  obtain ⟨src, hsrc, rfl⟩ := List.mem_map.1 hrow
  have hpos : 0 < (src.map Real.exp).sum := expRow_sum_pos src (h src hsrc)
  constructor
  · unfold normalizeRow
    rw [sum_map_div]
    exact div_self hpos.ne'
  · intro x hx
    obtain ⟨e, he, rfl⟩ := List.mem_map.1 hx
    obtain ⟨y, _, rfl⟩ := List.mem_map.1 he
    exact div_nonneg (Real.exp_pos y).le hpos.le

theorem softmax_rows_sum_one_nonneg_witness :
    (∀ row ∈ [[(0:ℝ), 0]], row ≠ []) ∧
    (∀ row ∈ softmax [[(0:ℝ), 0]], row.sum = 1 ∧ ∀ x ∈ row, 0 ≤ x) :=
  ⟨by simp, softmax_rows_sum_one_nonneg _ (by simp)⟩

/-- Claim C8: softmax is shift-invariant: adding one constant per row
to the score matrix leaves the output unchanged (exact arithmetic). -/
theorem softmax_shift_invariant (cs : List ℝ) (m : List (List ℝ))
    (h : cs.length = m.length) :
    softmax (List.zipWith (fun c row => row.map (fun x => x + c)) cs m)
      = softmax m := by
  rw [softmax_eq_plain, softmax_eq_plain]
  induction cs generalizing m with
  | nil =>
    have hm : m = [] := by simpa using h.symm
    subst hm
    rfl
  | cons c cs ih =>
    cases m with
    | nil => simp at h
    | cons row m2 =>
      simp only [List.zipWith_cons_cons, softmaxPlain, List.map_cons,
        List.cons.injEq]
      constructor
      · have hexp : (row.map (fun x => x + c)).map Real.exp
            = (row.map Real.exp).map (fun y => y * Real.exp c) := by
          simp [List.map_map, Real.exp_add]
        rw [hexp, normalizeRow_map_mul _ _ (Real.exp_ne_zero c)]
      · have := ih m2 (by simpa using h)
        simpa [softmaxPlain] using this

theorem softmax_shift_invariant_witness :
    ([(1:ℝ)].length = [[(0:ℝ)]].length) ∧
    softmax (List.zipWith (fun c row => row.map (fun x => x + c))
        [(1:ℝ)] [[(0:ℝ)]]) = softmax [[(0:ℝ)]] :=
  ⟨rfl, softmax_shift_invariant [(1:ℝ)] [[(0:ℝ)]] rfl⟩

/-- Claim C1 is false as stated: the exponent argument of `softmax` is
the score minus the GLOBAL maximum of the whole matrix
(`nd.max(y_linear)` reduces over all axes), not the row's own maximum.
At the matrix `[[0],[1]]` the intermediate `y_linear - nd.max(y_linear)`
is `[[-1],[0]]`, while the claimed row-wise shift would give `[[0],[0]]`. -/
theorem softmax_rowmax_counterexample :
    ¬ (globalShift [[(0:ℝ)], [1]]
        = [[(0:ℝ)], [1]].map (fun row => row.map (fun x => x - listMax row))) := by
  intro h
  have h2 := congrArg (fun l : List (List ℝ) => l.headI.headI) h
  norm_num [globalShift, listMax, max_def] at h2

/-- Claim C1 (amended): `softmax` subtracts the global maximum of the
entire score matrix — the same constant for every entry — before
exponentiating, then divides each exponentiated entry by its row's sum
of exponentials; in exact arithmetic the resulting output coincides
with the row-wise-maximum softmax described by the spec. -/
theorem softmax_globalmax_shift (m : List (List ℝ)) (i j : ℕ)
    (row : List ℝ) (h1 : m[i]? = some row) (h2 : j < row.length) :
    ((globalShift m)[i]?.bind fun r => r[j]?)
        = some (row.get ⟨j, h2⟩ - listMax m.flatten) ∧
    softmax m = softmaxRowSpec m := by
  constructor
  · unfold globalShift
    rw [List.getElem?_map, h1]
    simp [List.getElem?_map, List.getElem?_eq_getElem h2]
  · rw [softmax_eq_plain, softmaxRowSpec_eq_plain]

theorem softmax_globalmax_shift_witness :
    ([[(0:ℝ)], [1]][0]? = some [(0:ℝ)]) ∧ (0 < [(0:ℝ)].length) ∧
    (((globalShift [[(0:ℝ)], [1]])[0]?.bind fun r => r[0]?)
        = some ([(0:ℝ)].get ⟨0, by norm_num⟩ - listMax [[(0:ℝ)], [1]].flatten) ∧
      softmax [[(0:ℝ)], [1]] = softmaxRowSpec [[(0:ℝ)], [1]]) :=
  ⟨rfl, by norm_num,
    softmax_globalmax_shift [[(0:ℝ)], [1]] 0 0 [(0:ℝ)] rfl (by norm_num)⟩

/-- A trainable parameter: an NDArray value buffer together with the
gradient buffer attached by `attach_grad()` (`param.grad`), both
flattened to lists of scalars. -/
structure Param where
  value : List ℝ
  grad : List ℝ

/-- One step of the `for param in params` loop body of `SGD`:
`param[:] = param - lr * param.grad` writes the elementwise update
into the value buffer and leaves the gradient buffer untouched. -/
def sgdStep (lr : ℝ) (p : Param) : Param :=
  { value := List.zipWith (fun v g => v - lr * g) p.value p.grad
    grad := p.grad }

/-- `SGD(params, lr)` from both notebooks: iterate over the parameter
list in order, updating each value buffer in place. -/
def SGD : List Param → ℝ → List Param
  | [], _ => []
  | p :: rest, lr => sgdStep lr p :: SGD rest lr

/-- Claim C5: after `SGD(params, lr)` every parameter value equals its
pre-call value minus `lr` times that parameter's pre-call gradient;
the right-hand side is computed purely from the pre-call `params`, so
every update uses the gradients as they stood before any parameter was
modified (no interleaving). -/
theorem SGD_update_correct (params : List Param) (lr : ℝ) :
    (SGD params lr).map Param.value
      = params.map (fun p =>
          List.zipWith (fun v g => v - lr * g) p.value p.grad) := by
  induction params with
  | nil => rfl
  | cons p rest ih => simp [SGD, sgdStep, ih]

/-- Claim C10: `SGD` mutates only the value buffers: every parameter's
gradient buffer keeps its pre-call contents, and (the model being a
pure function of the parameter list) no other state is touched. -/
theorem SGD_preserves_grads (params : List Param) (lr : ℝ) :
    (SGD params lr).map Param.grad = params.map Param.grad := by
  induction params with
  | nil => rfl
  | cons p rest ih => simp [SGD, sgdStep, ih]

/-- Modelled from the spec: `mx.io.NDArrayIter` is external library
code not present under `src/`; spec section 4.1 describes it as a
lazy, finite, restartable sequence of fixed-size batches with a
position that only an explicit `reset()` rewinds.  Reshuffling permutes
the data order and is irrelevant to batch counts, so only the cursor,
the dataset size and the batch size are modelled. -/
structure NDArrayIter where
  numExamples : ℕ
  batchSize : ℕ
  cursor : ℕ

/-- Modelled from the spec: `reset()` rewinds the iterator position to
the start of the (reshuffled) dataset. -/
def NDArrayIter.reset (it : NDArrayIter) : NDArrayIter :=
  { it with cursor := 0 }

/-- Modelled from the spec: number of batches `next()` still yields
before exhaustion when the cursor is at `c` — each successful `next()`
consumes `B` examples and a full batch must fit. -/
def passCountFrom (N B c : ℕ) : ℕ :=
  if _h : 0 < B ∧ c + B ≤ N then passCountFrom N B (c + B) + 1 else 0
termination_by N - c
decreasing_by omega

/-- Modelled from the spec: the cursor position after iterating the
remainder of a pass to exhaustion. -/
def exhaustFrom (N B c : ℕ) : ℕ :=
  if _h : 0 < B ∧ c + B ≤ N then exhaustFrom N B (c + B) else c
termination_by N - c
decreasing_by omega

/-- Number of batches one full iteration pass over the iterator yields. -/
def NDArrayIter.passCount (it : NDArrayIter) : ℕ :=
  passCountFrom it.numExamples it.batchSize it.cursor

/-- The iterator as left after iterating it to exhaustion. -/
def NDArrayIter.exhaust (it : NDArrayIter) : NDArrayIter :=
  { it with cursor := exhaustFrom it.numExamples it.batchSize it.cursor }

lemma passCountFrom_eq (N B : ℕ) (hB : 0 < B) :
    ∀ c, passCountFrom N B c = (N - c) / B := by
  have H : ∀ k c, N - c ≤ k → passCountFrom N B c = (N - c) / B := by
    intro k
    induction k with
    | zero =>
      intro c hc
      rw [passCountFrom]
      have hnot : ¬ (0 < B ∧ c + B ≤ N) := by omega
      rw [dif_neg hnot]
      have hz : N - c = 0 := by omega
      simp [hz]
    | succ k ih =>
      intro c hc
      rw [passCountFrom]
      by_cases hstep : c + B ≤ N
      · rw [dif_pos ⟨hB, hstep⟩, ih (c + B) (by omega)]
        rw [Nat.div_eq_sub_div hB (by omega : B ≤ N - c)]
        have harg : N - (c + B) = N - c - B := by omega
        rw [harg]
      · rw [dif_neg (by omega)]
        rw [Nat.div_eq_of_lt (by omega)]
  intro c
  exact H (N - c) c le_rfl

lemma exhaustFrom_spec (N B : ℕ) (hB : 0 < B) :
    ∀ c, ¬ (exhaustFrom N B c + B ≤ N) := by
  have H : ∀ k c, N - c ≤ k → ¬ (exhaustFrom N B c + B ≤ N) := by
    intro k
    induction k with
    | zero =>
      intro c hc
      rw [exhaustFrom]
      have hnot : ¬ (0 < B ∧ c + B ≤ N) := by omega
      rw [dif_neg hnot]
      omega
    | succ k ih =>
      intro c hc
      rw [exhaustFrom]
      by_cases hstep : c + B ≤ N
      · rw [dif_pos ⟨hB, hstep⟩]
        exact ih (c + B) (by omega)
      · rw [dif_neg (by omega)]
        omega
  intro c
  exact H (N - c) c le_rfl

/-- Claim C3: with `N` divisible by `B`, a full iteration pass after a
reset yields exactly `N / B` batches, and a second pass without an
intervening reset yields zero batches. -/
theorem batch_iterator_pass_counts (N B c0 : ℕ) (hB : 0 < B) (_ : B ∣ N) :
    (NDArrayIter.reset ⟨N, B, c0⟩).passCount = N / B ∧
    ((NDArrayIter.reset ⟨N, B, c0⟩).exhaust).passCount = 0 := by
  constructor
  · show passCountFrom N B 0 = N / B
    rw [passCountFrom_eq N B hB 0]
    simp
  · show passCountFrom N B (exhaustFrom N B 0) = 0
    rw [passCountFrom]
    rw [dif_neg]
    intro hcontra
    exact exhaustFrom_spec N B hB 0 hcontra.2

theorem batch_iterator_pass_counts_witness :
    0 < 4 ∧ (4 ∣ 8) ∧
    ((NDArrayIter.reset ⟨8, 4, 5⟩).passCount = 8 / 4 ∧
      ((NDArrayIter.reset ⟨8, 4, 5⟩).exhaust).passCount = 0) :=
  ⟨by decide, by decide, batch_iterator_pass_counts 8 4 5 (by decide) (by decide)⟩

/-- The inner `for i, batch in enumerate(train_data)` loop of the
training cells: `i` is the batch index within the epoch, `e` the epoch
index, `ml` the running `moving_loss`, and the list holds each batch's
`nd.mean(loss).asscalar()`.  The update is
`moving_loss = curr_loss if ((i == 0) and (e == 0)) else
(1 - smoothing_constant) * moving_loss + smoothing_constant * curr_loss`
(the linear-regression notebook writes the same update with the
coefficients `0.99` and `0.01`, i.e. `s = 0.01`). -/
def movingLossEpoch (s : ℝ) (e : ℕ) : ℕ → ℝ → List ℝ → ℝ
  | _, ml, [] => ml
  | i, ml, c :: rest =>
      movingLossEpoch s e (i + 1)
        (if i = 0 ∧ e = 0 then c else (1 - s) * ml + s * c) rest

/-- The outer `for e in range(epochs)` loop threading `moving_loss`
through the epochs. -/
def movingLossEpochs (s : ℝ) : ℕ → ℝ → List (List ℝ) → ℝ
  | _, ml, [] => ml
  | e, ml, ls :: rest => movingLossEpochs s (e + 1) (movingLossEpoch s e 0 ml ls) rest

/-- `moving_loss` at the end of training: both notebooks initialize
`moving_loss = 0.` and start at epoch 0, batch 0. -/
def movingLossRun (s : ℝ) (losses : List (List ℝ)) : ℝ :=
  movingLossEpochs s 0 0 losses

/-- Plain exponentially-weighted moving average continued from a seed. -/
def ewmaFrom (s a : ℝ) (ls : List ℝ) : ℝ :=
  ls.foldl (fun ml c => (1 - s) * ml + s * c) a

/-- Modelled from the spec's words: an EWMA of the per-batch losses
seeded directly from the first observed loss rather than from zero,
each later batch contributing `new = smoothing * current +
(1 - smoothing) * old`. -/
def ewmaSeededSpec (s : ℝ) : List ℝ → ℝ
  | [] => 0
  | c :: rest => ewmaFrom s c rest

lemma movingLossEpoch_not_first (s : ℝ) (e : ℕ) :
    ∀ (ls : List ℝ) (i : ℕ) (ml : ℝ), ¬ (i = 0 ∧ e = 0) →
      movingLossEpoch s e i ml ls = ewmaFrom s ml ls := by
  intro ls
  induction ls with
  | nil => intro i ml _; rfl
  | cons c rest ih =>
    intro i ml hne
    rw [movingLossEpoch, if_neg hne]
    rw [ih (i + 1) _ (by omega)]
    rfl

lemma movingLossEpochs_pos (s : ℝ) :
    ∀ (rest : List (List ℝ)) (e : ℕ) (ml : ℝ), e ≠ 0 →
      movingLossEpochs s e ml rest = ewmaFrom s ml rest.flatten := by
  intro rest
  induction rest with
  | nil => intro e ml _; rfl
  | cons ls rest ih =>
    intro e ml he
    rw [movingLossEpochs, ih (e + 1) _ (by omega)]
    rw [movingLossEpoch_not_first s e ls 0 ml (by omega)]
    show ewmaFrom s (ewmaFrom s ml ls) rest.flatten = _
    rw [List.flatten_cons]
    unfold ewmaFrom
    rw [List.foldl_append]

/-- Claim C4: the training loops' `moving_loss` equals the spec's
seeded EWMA over the flattened sequence of per-batch mean losses:
after the first batch of the first epoch it equals that batch's loss
(the initial `0.` is discarded, not blended in), and each later batch
updates it to `smoothing * current + (1 - smoothing) * previous`.
The hypothesis rules out an empty first epoch, in which the seeding
branch `(i == 0) and (e == 0)` would never run. -/
theorem moving_loss_seeded_ewma (s : ℝ) (losses : List (List ℝ))
    (h : losses.head? ≠ some ([] : List ℝ)) :
    movingLossRun s losses = ewmaSeededSpec s losses.flatten := by
  cases losses with
  | nil => rfl
  | cons ls rest =>
    cases ls with
    | nil => simp at h
    | cons c ls2 =>
      show movingLossEpochs s 1 (movingLossEpoch s 0 0 0 (c :: ls2)) rest = _
      rw [movingLossEpoch]
      rw [if_pos ⟨rfl, rfl⟩]
      rw [movingLossEpoch_not_first s 0 ls2 1 c (by omega)]
      rw [movingLossEpochs_pos s rest 1 _ (by omega)]
      show _ = ewmaSeededSpec s (c :: (ls2 ++ rest.flatten))
      rw [ewmaSeededSpec]
      unfold ewmaFrom
      rw [List.foldl_append]

theorem moving_loss_seeded_ewma_witness :
    ([[(1:ℝ), 2], [3]].head? ≠ some ([] : List ℝ)) ∧
    movingLossRun (1/2) [[(1:ℝ), 2], [3]]
      = ewmaSeededSpec (1/2) [[(1:ℝ), 2], [3]].flatten :=
  ⟨by simp, moving_loss_seeded_ewma (1/2) [[(1:ℝ), 2], [3]] (by simp)⟩

/-- `cross_entropy(yhat, y)` from the softmax notebook:
`return - nd.sum(y * nd.log(yhat), axis=0, exclude=True)` — the
elementwise product of the one-hot labels with the log predictions,
summed per example row and negated; one scalar per example. -/
noncomputable def cross_entropy (yhat y : List (List ℝ)) : List ℝ :=
  List.zipWith
    (fun yhatRow yRow =>
      -(List.zipWith (fun c q => c * Real.log q) yRow yhatRow).sum)
    yhat y

lemma getElem?_zipWith2 {α β γ : Type} (f : α → β → γ) :
    ∀ (as : List α) (bs : List β) (i : ℕ),
      (List.zipWith f as bs)[i]? = (as[i]?).bind fun a => (bs[i]?).map (f a) := by
  intro as
  induction as with
  | nil => intro bs i; simp
  | cons a as ih =>
    intro bs i
    cases bs with
    | nil => simp
    | cons b bs =>
      cases i with
      | zero => simp
      | succ n => simpa using ih bs n

/-- Claim C6: `cross_entropy` returns one entry per example, each equal
to the negative sum over classes of label component times log of the
predicted probability; the output is a per-example vector, the batch
mean (`nd.mean(loss)`) being taken separately in the training loop. -/
theorem cross_entropy_per_example (yhat y : List (List ℝ)) (i : ℕ)
    (hr hy : List ℝ) (hlen : yhat.length = y.length)
    (h1 : yhat[i]? = some hr) (h2 : y[i]? = some hy) :
    (cross_entropy yhat y).length = yhat.length ∧
    (cross_entropy yhat y)[i]?
      = some (-(List.zipWith (fun c q => c * Real.log q) hy hr).sum) := by
  constructor
  · unfold cross_entropy
    rw [List.length_zipWith]
    omega
  · unfold cross_entropy
    rw [getElem?_zipWith2, h1, h2]
    rfl

theorem cross_entropy_per_example_witness :
    ([[(1:ℝ)]].length = [[(1:ℝ)]].length) ∧
    ([[(1:ℝ)]][0]? = some [(1:ℝ)]) ∧
    ((cross_entropy [[(1:ℝ)]] [[(1:ℝ)]]).length = [[(1:ℝ)]].length ∧
      (cross_entropy [[(1:ℝ)]] [[(1:ℝ)]])[0]?
        = some (-(List.zipWith (fun c q => c * Real.log q)
            [(1:ℝ)] [(1:ℝ)]).sum)) :=
  ⟨rfl, rfl,
    cross_entropy_per_example [[(1:ℝ)]] [[(1:ℝ)]] 0 [(1:ℝ)] [(1:ℝ)] rfl rfl rfl⟩

/-- Inner loop of `nd.argmax(row)`: first index of the maximum entry
(ties keep the earlier index, as NDArray argmax does). -/
noncomputable def argmaxAux : ℝ → ℕ → ℕ → List ℝ → ℕ
  | _, bestIdx, _, [] => bestIdx
  | best, bestIdx, i, x :: xs =>
      if best < x then argmaxAux x i (i + 1) xs
      else argmaxAux best bestIdx (i + 1) xs

/-- `nd.argmax(output, axis=1)` applied to one row. -/
noncomputable def argmaxIdx : List ℝ → ℕ
  | [] => 0
  | x :: xs => argmaxAux x 0 1 xs

/-- The accumulation body of `evaluate_accuracy`: for each batch,
`numerator += nd.sum(predictions == label)` and
`denominator += data.shape[0]`.  An example is a (feature vector,
label) pair; `net` is the forward function passed in. -/
noncomputable def evalLoop (net : List ℝ → List ℝ) :
    ℝ → ℝ → List (List (List ℝ × ℕ)) → ℝ × ℝ
  | num, den, [] => (num, den)
  | num, den, batch :: rest =>
      evalLoop net
        (num + (batch.countP (fun ex => argmaxIdx (net ex.1) == ex.2) : ℝ))
        (den + (batch.length : ℝ)) rest

/-- `evaluate_accuracy(data_iterator, net)`: reset, run the batch loop
from zero accumulators, return `numerator / denominator`.  The batch
structure of the full pass is the `batches` argument. -/
noncomputable def evaluate_accuracy (net : List ℝ → List ℝ)
    (batches : List (List (List ℝ × ℕ))) : ℝ :=
  (evalLoop net 0 0 batches).1 / (evalLoop net 0 0 batches).2

lemma evalLoop_spec (net : List ℝ → List ℝ) :
    ∀ (batches : List (List (List ℝ × ℕ))) (num den : ℝ),
      evalLoop net num den batches
        = (num + (batches.flatten.countP
              (fun ex => argmaxIdx (net ex.1) == ex.2) : ℝ),
           den + (batches.flatten.length : ℝ)) := by
  intro batches
  induction batches with
  | nil => intro num den; simp [evalLoop]
  | cons b rest ih =>
    intro num den
    rw [evalLoop, ih]
    simp only [List.flatten_cons, List.countP_append, List.length_append,
      Nat.cast_add, Prod.mk.injEq]
    constructor <;> ring

/-- Claim C7: over any full pass whose batches together are a
permutation of the dataset (reset + reshuffle), `evaluate_accuracy`
returns the fraction of dataset examples whose predicted argmax equals
the true label.  The pass is pure: no parameter or gradient state is
touched. -/
theorem evaluate_accuracy_fraction (net : List ℝ → List ℝ)
    (batches : List (List (List ℝ × ℕ))) (dataset : List (List ℝ × ℕ))
    (h : batches.flatten.Perm dataset) :
    evaluate_accuracy net batches
      = (dataset.countP (fun ex => argmaxIdx (net ex.1) == ex.2) : ℝ)
        / (dataset.length : ℝ) := by
  unfold evaluate_accuracy
  rw [evalLoop_spec net batches 0 0]
  rw [show batches.flatten.countP (fun ex => argmaxIdx (net ex.1) == ex.2)
        = dataset.countP (fun ex => argmaxIdx (net ex.1) == ex.2)
      from h.countP_eq _]
  rw [h.length_eq]
  simp

theorem evaluate_accuracy_fraction_witness :
    (([[([(1:ℝ), 0], 0)], [([(0:ℝ), 1], 1)]]
        : List (List (List ℝ × ℕ))).flatten.Perm
      [([(1:ℝ), 0], 0), ([(0:ℝ), 1], 1)]) ∧
    evaluate_accuracy (fun v => v) [[([(1:ℝ), 0], 0)], [([(0:ℝ), 1], 1)]]
      = (([([(1:ℝ), 0], 0), ([(0:ℝ), 1], 1)] : List (List ℝ × ℕ)).countP
            (fun ex => argmaxIdx ((fun v : List ℝ => v) ex.1) == ex.2) : ℝ)
        / (([([(1:ℝ), 0], 0), ([(0:ℝ), 1], 1)] : List (List ℝ × ℕ)).length : ℝ) :=
  ⟨List.Perm.refl _,
    evaluate_accuracy_fraction (fun v => v) _ _ (List.Perm.refl _)⟩

/-- Model of `nd.one_hot(label, depth)` restricted to a single label:
a length-`depth` vector with 1 at the label index and 0 elsewhere. -/
def one_hot : ℕ → ℕ → List ℝ
  | 0, _ => []
  | n + 1, 0 => 1 :: List.replicate n 0
  | n + 1, t + 1 => 0 :: one_hot n t

lemma zip_log_replicate_zero (n : ℕ) :
    ∀ xs : List ℝ,
      (List.zipWith (fun c q => c * Real.log q)
        (List.replicate n (0:ℝ)) xs).sum = 0 := by
  induction n with
  | zero => intro xs; simp
  | succ n ih =>
    intro xs
    cases xs with
    | nil => simp
    | cons x xs => simp [List.replicate_succ, ih]

lemma one_hot_zip_log_sum (l : List ℝ) :
    ∀ (t : ℕ) (h : t < l.length),
      (List.zipWith (fun c q => c * Real.log q) (one_hot l.length t) l).sum
        = Real.log (l.get ⟨t, h⟩) := by
  induction l with
  | nil => intro t h; simp at h
  | cons x xs ih =>
    intro t h
    cases t with
    | zero => simp [one_hot, zip_log_replicate_zero]
    | succ t =>
      have h2 : t < xs.length := by simpa using h
      simp [one_hot, ih t h2]

lemma argmaxAux_lt (n : ℕ) :
    ∀ (xs : List ℝ) (best : ℝ) (bi i : ℕ), bi < n → i + xs.length ≤ n →
      argmaxAux best bi i xs < n := by
  intro xs
  induction xs with
  | nil =>
    intro best bi i hbi _
    simpa [argmaxAux] using hbi
  | cons x xs ih =>
    intro best bi i hbi hlen
    simp only [List.length_cons] at hlen
    simp only [argmaxAux]
    split
    · exact ih x i (i + 1) (by omega) (by omega)
    · exact ih best bi (i + 1) hbi (by omega)

lemma argmaxIdx_lt (l : List ℝ) (h : l ≠ []) : argmaxIdx l < l.length := by
  cases l with
  | nil => simp at h
  | cons x xs =>
    show argmaxAux x 0 1 xs < xs.length + 1
    exact argmaxAux_lt (xs.length + 1) xs x 0 1 (by omega) (by omega)

/-- Claim C9: for a probability vector `p` (positive entries summing
to 1), the cross-entropy against the one-hot label at `p`'s own argmax
is the single value `-log a` where `a` is the argmax entry; it is
non-negative, strictly decreases as the true-class probability
increases, vanishes exactly at probability 1, and is strictly positive
below 1. -/
theorem cross_entropy_one_hot_argmax (p : List ℝ) (t : ℕ) (a : ℝ)
    (hpos : ∀ x ∈ p, 0 < x) (hsum : p.sum = 1) (ht : t = argmaxIdx p)
    (ha : p[t]? = some a) :
    cross_entropy [p] [one_hot p.length t] = [-Real.log a] ∧
    0 ≤ -Real.log a ∧
    (∀ b, a < b → -Real.log b < -Real.log a) ∧
    (-Real.log a = 0 ↔ a = 1) ∧
    (a < 1 → 0 < -Real.log a) := by
  have htlen : t < p.length := by
    by_contra hcon
    rw [List.getElem?_eq_none (by omega)] at ha
    exact Option.noConfusion ha
  have hget : p.get ⟨t, htlen⟩ = a := by
    rw [List.getElem?_eq_getElem htlen] at ha
    exact Option.some.inj ha
  have hmem : a ∈ p := by
    rw [← hget]
    exact p.get_mem t htlen
  have ha0 : 0 < a := hpos a hmem
  have ha1 : a ≤ 1 := by
    rw [← hsum]
    exact List.single_le_sum (fun x hx => (hpos x hx).le) a hmem
  refine ⟨?_, ?_, ?_, ?_, ?_⟩
  · show [-(List.zipWith (fun c q => c * Real.log q) (one_hot p.length t) p).sum]
        = [-Real.log a]
    rw [one_hot_zip_log_sum p t htlen, hget]
  · have := Real.log_nonpos ha0.le ha1
    linarith
  · intro b hab
    have := Real.log_lt_log ha0 hab
    linarith
  · constructor
    · intro h0
      have hlog : Real.log a = 0 := by linarith
      rcases Real.log_eq_zero.mp hlog with hz | hz | hz
      · exact absurd hz ha0.ne'
      · exact hz
      · linarith
    · intro h1
      rw [h1]
      simp
  · intro hlt
    have := Real.log_neg ha0 hlt
    linarith

theorem cross_entropy_one_hot_argmax_witness :
    (∀ x ∈ [(1:ℝ)], 0 < x) ∧ ([(1:ℝ)].sum = 1) ∧
    (0 = argmaxIdx [(1:ℝ)]) ∧ ([(1:ℝ)][0]? = some 1) ∧
    (cross_entropy [[(1:ℝ)]] [one_hot [(1:ℝ)].length 0] = [-Real.log 1] ∧
      0 ≤ -Real.log 1 ∧
      (∀ b, (1:ℝ) < b → -Real.log b < -Real.log 1) ∧
      (-Real.log (1:ℝ) = 0 ↔ (1:ℝ) = 1) ∧
      ((1:ℝ) < 1 → 0 < -Real.log 1)) :=
  ⟨by norm_num, by norm_num, rfl, rfl,
    cross_entropy_one_hot_argmax [(1:ℝ)] 0 1 (by norm_num) (by norm_num) rfl rfl⟩
